import Mathlib

/-!
# Contact Collection Engine — shallow embedding and verification

This file embeds the stateful core of the contact-list application
(`src/App.jsx`, `AddContactForm`, `EditContactForm` from the repository) into
Lean 4 and proves or refutes the specification claims about it.

Strings are modelled as `List Char`; JavaScript `String.prototype.trim`,
`toLowerCase`, and `includes` become `trim`, `lower`, and `containsSub`;
`localeCompare` is modelled, for ASCII text, after the default collator: a
primary pass compares base letters case-insensitively and, only when it
ties, a tertiary pass orders lowercase before uppercase (so `"aMY"` sorts
before `"Amy"`, and case-differing spellings are ordered by case rather
than tied); `Array.prototype.sort` (stable per the ECMAScript spec) becomes
`List.mergeSort`; `setTimeout` callbacks become an explicit queue of pending
timers on the UI state.
-/

namespace ContactApp

/-- JavaScript `String.prototype.trim`: drop leading and trailing whitespace. -/
def trim (s : List Char) : List Char :=
  ((s.dropWhile Char.isWhitespace).reverse.dropWhile Char.isWhitespace).reverse

/-- JavaScript `String.prototype.toLowerCase`, modelled character-wise. -/
def lower (s : List Char) : List Char :=
  s.map Char.toLower

/-- JavaScript `haystack.includes(needle)`: substring containment. -/
def containsSub (needle : List Char) : List Char → Bool
  | [] => needle.isEmpty
  | c :: rest => List.isPrefixOf needle (c :: rest) || containsSub needle rest

/-- The test `/\S+@\S+\.\S+/.test(email)` from `validateForm`: there are
positions `p < q` holding `'@'` and `'.'`, a non-whitespace character just
before the `'@'` and just after the `'.'`, and only non-whitespace characters
strictly between them (at least one). -/
def emailTest (s : List Char) : Bool :=
  (List.range s.length).any fun p =>
    (List.range s.length).any fun q =>
      decide (1 ≤ p) && decide (p + 2 ≤ q) && decide (q + 1 < s.length) &&
      (s.getD p ' ' == '@') && (s.getD q ' ' == '.') &&
      !(s.getD (p - 1) ' ').isWhitespace &&
      !(s.getD (q + 1) ' ').isWhitespace &&
      ((List.range s.length).all fun r =>
        !(decide (p < r) && decide (r < q)) || !(s.getD r ' ').isWhitespace)

/-- A contact record as stored in the `contacts` state array. -/
structure Contact where
  id : Nat
  name : List Char
  email : List Char
  phone : List Char
  location : Option (List Char)
  address : Option (List Char)
  birthday : Option (List Char)
  isFavorite : Bool
deriving DecidableEq

/-- The `formData` state of `AddContactForm` / `EditContactForm`. -/
structure FormData where
  name : List Char
  email : List Char
  phone : List Char
  location : List Char
  address : List Char
  birthday : List Char
deriving DecidableEq

/-- Field errors produced by `validateForm` (`newErrors.name` / `.email` /
`.phone` keys; the phone key carries either the required-field or the
duplicate message). -/
inductive FieldError where
  | nameRequired
  | emailRequired
  | emailInvalid
  | phoneRequired
  | duplicatePhone
deriving DecidableEq

/-- The duplicate-phone check in `validateForm`:
`existingContacts.some(contact => contact.phone === formData.phone.trim())`.
Note the stored phone is compared untrimmed. -/
def phoneDuplicate (existing : List Contact) (p : List Char) : Bool :=
  existing.any fun c => c.phone == p

/-- `validateForm` of `AddContactForm` and `EditContactForm` (identical
bodies; the edit form receives `existingContacts` already excluding the
contact being edited). Returns the set of field errors; the form is valid
iff the result is empty (`Object.keys(newErrors).length === 0`). -/
def validateForm (f : FormData) (existing : List Contact) : List FieldError :=
  (if trim f.name = [] then [FieldError.nameRequired] else []) ++
  (if trim f.email = [] then [FieldError.emailRequired]
   else if emailTest f.email then [] else [FieldError.emailInvalid]) ++
  (if trim f.phone = [] then [FieldError.phoneRequired]
   else if phoneDuplicate existing (trim f.phone) then [FieldError.duplicatePhone]
   else [])

/-- The contact built by `AddContactForm.handleSubmit`: `id: Date.now()`
(the submission timestamp `t`), trimmed text fields, empty optionals mapped
to `null`, `isFavorite: false`. -/
def newContact (t : Nat) (f : FormData) : Contact :=
  { id := t
    name := trim f.name
    email := trim f.email
    phone := trim f.phone
    location := if trim f.location = [] then none else some (trim f.location)
    address := if trim f.address = [] then none else some (trim f.address)
    birthday := if f.birthday = [] then none else some f.birthday
    isFavorite := false }

/-- The contact built by `EditContactForm.handleSubmit`: spread of the
existing contact (keeping `id` and `isFavorite`) with the form fields. -/
def updatedContact (c : Contact) (f : FormData) : Contact :=
  { c with
    name := trim f.name
    email := trim f.email
    phone := trim f.phone
    location := if trim f.location = [] then none else some (trim f.location)
    address := if trim f.address = [] then none else some (trim f.address)
    birthday := if f.birthday = [] then none else some f.birthday }

/-- The part of the `App` component state the store claims are about:
the `contacts` array and the single `deletedContact` undo slot. -/
structure AppState where
  contacts : List Contact
  deletedContact : Option Contact
deriving DecidableEq

/-- `handleAddContact`: prepend `{...newContact, isFavorite: false}`. -/
def handleAddContact (s : AppState) (c : Contact) : AppState :=
  { s with contacts := { c with isFavorite := false } :: s.contacts }

/-- `handleToggleFavorite`: flip `isFavorite` on every contact whose id
matches, leave the rest untouched. -/
def handleToggleFavorite (contacts : List Contact) (contactId : Nat) : List Contact :=
  contacts.map fun c =>
    if c.id = contactId then { c with isFavorite := !c.isFavorite } else c

/-- `handleUpdateContact`'s state update: replace every contact whose id
matches `updatedContact.id`. -/
def handleUpdateContact (contacts : List Contact) (u : Contact) : List Contact :=
  contacts.map fun c => if c.id = u.id then u else c

/-- `handleConfirmDelete` with `contactToDelete = target`: park the record in
the undo slot (overwriting any previous occupant) and remove it from the
active collection. -/
def handleConfirmDelete (s : AppState) (target : Contact) : AppState :=
  { contacts := s.contacts.filter fun c => !(c.id = target.id : Bool)
    deletedContact := some target }

/-- `handleDeleteContact` followed by `handleConfirmDelete`: look the contact
up by id; if absent nothing happens. -/
def requestDelete (s : AppState) (contactId : Nat) : AppState :=
  match s.contacts.find? (fun c => c.id == contactId) with
  | some c => handleConfirmDelete s c
  | none => s

/-- `handleUndoDelete`: if the undo slot is occupied, append its record to
the active collection and clear the slot; otherwise do nothing. -/
def handleUndoDelete (s : AppState) : AppState :=
  match s.deletedContact with
  | some c => { contacts := s.contacts ++ [c], deletedContact := none }
  | none => s

/-- Submitting the add form at timestamp `t`: `handleSubmit` runs
`validateForm` against the current contacts and calls `onAddContact`
(= `handleAddContact`) only when it passes. -/
def submitAdd (s : AppState) (t : Nat) (f : FormData) : AppState :=
  if validateForm f s.contacts = [] then handleAddContact s (newContact t f) else s

/-- Submitting the edit form for the contact with id `editId`: the form is
only reachable when `find?` succeeds; validation runs against
`contacts.filter(c => c.id !== contactToEdit.id)` and on success
`handleUpdateContact` replaces the record. -/
def submitEdit (s : AppState) (editId : Nat) (f : FormData) : AppState :=
  match s.contacts.find? (fun c => c.id == editId) with
  | none => s
  | some c =>
    if validateForm f (s.contacts.filter fun x => !(x.id = editId : Bool)) = [] then
      { s with contacts := handleUpdateContact s.contacts (updatedContact c f) }
    else s

/-- The filter stage of the derivation `useEffect`: all contacts when the
trimmed query is empty, otherwise those whose lowercased name contains the
lowercased (untrimmed) query. -/
def filterContacts (contacts : List Contact) (searchQuery : List Char) : List Contact :=
  if trim searchQuery = [] then contacts
  else contacts.filter fun c => containsSub (lower searchQuery) (lower c.name)

/-- Pointwise lexicographic comparison of character lists by a
per-character weight `k`: a strict prefix comes first, otherwise the first
position with distinct weights decides. -/
def cmpBy (k : Char → Nat) : List Char → List Char → Ordering
  | [], [] => Ordering.eq
  | [], _ :: _ => Ordering.lt
  | _ :: _, [] => Ordering.gt
  | a :: as, b :: bs =>
    match compare (k a) (k b) with
    | Ordering.eq => cmpBy k as bs
    | o => o

/-- Code-point lexicographic comparison; the collator's primary pass runs
it on lowercased text. -/
def lexCmp : List Char → List Char → Ordering := cmpBy fun c => c.toNat

/-- The collator's tertiary case weight for ASCII: lowercase before
uppercase. -/
def caseRank (c : Char) : Nat := if c.isUpper then 1 else 0

/-- The collator's case pass: the first position whose case class differs
decides, lowercase first. -/
def caseCmp : List Char → List Char → Ordering := cmpBy caseRank

/-- Model of `x.localeCompare(y)` under the default collator, for ASCII
text: the primary pass compares base letters case-insensitively (lowercased
code points); only when it ties does the tertiary case pass run. Spellings
that differ only in case are therefore *ordered* (lowercase first at the
first case difference), never tied; the comparator returns `eq` only on
identical ASCII text. -/
def localeCompareCmp (x y : List Char) : Ordering :=
  match lexCmp (lower x) (lower y) with
  | Ordering.eq => caseCmp x y
  | o => o

/-- The sort comparator of the derivation `useEffect`: favorites first, then
`a.name.localeCompare(b.name)`. -/
def cmpContacts (a b : Contact) : Ordering :=
  if a.isFavorite && !b.isFavorite then Ordering.lt
  else if !a.isFavorite && b.isFavorite then Ordering.gt
  else localeCompareCmp a.name b.name

/-- `le` for the stable sort: comparator result is not positive. -/
def sortLe (a b : Contact) : Bool :=
  cmpContacts a b != Ordering.gt

/-- The full derivation pipeline: filter then stable sort
(ECMAScript `Array.prototype.sort` is stable, modelled by `mergeSort`).
This is the `filteredContacts` state after the `useEffect` runs. -/
def derive (contacts : List Contact) (searchQuery : List Char) : List Contact :=
  (filterContacts contacts searchQuery).mergeSort sortLe

/-! ## Properties of the text primitives -/

theorem trim_eq_rdropWhile (s : List Char) :
    trim s = List.rdropWhile Char.isWhitespace (List.dropWhile Char.isWhitespace s) := rfl

/-- Trimming is idempotent. -/
theorem trim_trim (s : List Char) : trim (trim s) = trim s := by
  rw [trim_eq_rdropWhile, trim_eq_rdropWhile]
  have hdrop : List.dropWhile Char.isWhitespace
      (List.rdropWhile Char.isWhitespace (List.dropWhile Char.isWhitespace s)) =
      List.rdropWhile Char.isWhitespace (List.dropWhile Char.isWhitespace s) := by
    rw [List.dropWhile_eq_self_iff]
    intro hl
    have hpre : List.rdropWhile Char.isWhitespace (List.dropWhile Char.isWhitespace s) <+:
        List.dropWhile Char.isWhitespace s :=
      List.rdropWhile_prefix Char.isWhitespace (List.dropWhile Char.isWhitespace s)
    have hlen : 0 < (List.dropWhile Char.isWhitespace s).length :=
      Nat.lt_of_lt_of_le hl hpre.length_le
    have hhead := List.dropWhile_eq_self_iff.mp
      (List.dropWhile_idempotent (l := s) (p := Char.isWhitespace)) hlen
    have : (List.rdropWhile Char.isWhitespace (List.dropWhile Char.isWhitespace s)).get ⟨0, hl⟩ =
        (List.dropWhile Char.isWhitespace s).get ⟨0, hlen⟩ := by
      simpa [List.get_eq_getElem] using hpre.getElem (n := 0) hl
    rw [this]
    exact hhead
  rw [hdrop, List.rdropWhile_idempotent]

/-- `containsSub` decides substring containment. -/
theorem containsSub_iff (needle s : List Char) :
    containsSub needle s = true ↔ needle <:+: s := by
  induction s with
  | nil =>
    simp [containsSub, List.isEmpty_iff]
  | cons c rest ih =>
    simp [containsSub, ih, List.infix_cons_iff]

/-- `cmpBy` is reflexive. -/
theorem cmpBy_self (k : Char → Nat) (x : List Char) : cmpBy k x x = Ordering.eq := by
  induction x with
  | nil => rfl
  | cons a as ih => simp [cmpBy, Nat.compare_eq_eq.mpr rfl, ih]

/-- Transitivity of the non-strict order induced by `cmpBy`. -/
theorem cmpBy_le_trans (k : Char → Nat) : ∀ x y z : List Char,
    cmpBy k x y ≠ Ordering.gt → cmpBy k y z ≠ Ordering.gt →
      cmpBy k x z ≠ Ordering.gt
  | [], _, z, _, _ => by cases z <;> simp [cmpBy]
  | _ :: _, [], _, h1, _ => absurd rfl h1
  | _ :: _, _ :: _, [], _, h2 => absurd rfl h2
  | a :: as, b :: bs, c :: cs, h1, h2 => by
    simp only [cmpBy] at h1 h2 ⊢
    rcases hab : compare (k a) (k b) with _ | _ | _ <;> rw [hab] at h1 <;>
      rcases hbc : compare (k b) (k c) with _ | _ | _ <;> rw [hbc] at h2
    · have hac : compare (k a) (k c) = Ordering.lt :=
        Nat.compare_eq_lt.mpr
          (Nat.lt_trans (Nat.compare_eq_lt.mp hab) (Nat.compare_eq_lt.mp hbc))
      rw [hac]; exact fun h => Ordering.noConfusion h
    · have hac : compare (k a) (k c) = Ordering.lt := by
        rw [← Nat.compare_eq_eq.mp hbc]; exact hab
      rw [hac]; exact fun h => Ordering.noConfusion h
    · exact absurd rfl h2
    · have hac : compare (k a) (k c) = Ordering.lt := by
        rw [Nat.compare_eq_eq.mp hab]; exact hbc
      rw [hac]; exact fun h => Ordering.noConfusion h
    · have hac : compare (k a) (k c) = Ordering.eq := by
        rw [Nat.compare_eq_eq.mp hab]; exact hbc
      rw [hac]; exact cmpBy_le_trans k as bs cs h1 h2
    · exact absurd rfl h2
    · exact absurd rfl h1
    · exact absurd rfl h1
    · exact absurd rfl h1

/-- Totality of the non-strict order induced by `cmpBy`. -/
theorem cmpBy_le_total (k : Char → Nat) : ∀ x y : List Char,
    cmpBy k x y ≠ Ordering.gt ∨ cmpBy k y x ≠ Ordering.gt
  | [], y => by cases y <;> simp [cmpBy]
  | _ :: _, [] => by simp [cmpBy]
  | a :: as, b :: bs => by
    simp only [cmpBy]
    rcases hab : compare (k a) (k b) with _ | _ | _
    · left; exact fun h => Ordering.noConfusion h
    · have hba : compare (k b) (k a) = Ordering.eq :=
        Nat.compare_eq_eq.mpr (Nat.compare_eq_eq.mp hab).symm
      rcases cmpBy_le_total k as bs with h | h
      · left; exact h
      · right; rw [hba]; exact h
    · right
      have hba : compare (k b) (k a) = Ordering.lt :=
        Nat.compare_eq_lt.mpr (Nat.compare_eq_gt.mp hab)
      rw [hba]; exact fun h => Ordering.noConfusion h

/-- Swapping the arguments of `cmpBy` swaps the result. -/
theorem cmpBy_swap (k : Char → Nat) : ∀ x y : List Char,
    cmpBy k y x = (cmpBy k x y).swap
  | [], [] => rfl
  | [], _ :: _ => rfl
  | _ :: _, [] => rfl
  | a :: as, b :: bs => by
    simp only [cmpBy]
    rcases hab : compare (k a) (k b) with _ | _ | _
    · rw [Nat.compare_eq_gt.mpr (Nat.compare_eq_lt.mp hab)]; rfl
    · rw [Nat.compare_eq_eq.mpr (Nat.compare_eq_eq.mp hab).symm,
        cmpBy_swap k as bs]
    · rw [Nat.compare_eq_lt.mpr (Nat.compare_eq_gt.mp hab)]; rfl

/-- `cmpBy` with an injective weight returns `eq` only on equal lists. -/
theorem cmpBy_eq_of_inj {k : Char → Nat} (hk : ∀ a b : Char, k a = k b → a = b) :
    ∀ {x y : List Char}, cmpBy k x y = Ordering.eq → x = y
  | [], [], _ => rfl
  | [], _ :: _, h => Ordering.noConfusion h
  | _ :: _, [], h => Ordering.noConfusion h
  | a :: as, b :: bs, h => by
    simp only [cmpBy] at h
    rcases hab : compare (k a) (k b) with _ | _ | _ <;> rw [hab] at h
    · exact Ordering.noConfusion h
    · rw [hk a b (Nat.compare_eq_eq.mp hab), cmpBy_eq_of_inj hk h]
    · exact Ordering.noConfusion h

/-- `Char.toNat` is injective. -/
theorem char_toNat_inj (a b : Char) (h : a.toNat = b.toNat) : a = b :=
  Char.ext (UInt32.toNat.inj h)

theorem lexCmp_self (x : List Char) : lexCmp x x = Ordering.eq :=
  cmpBy_self _ x

theorem lexLe_trans : ∀ x y z : List Char,
    lexCmp x y ≠ Ordering.gt → lexCmp y z ≠ Ordering.gt →
      lexCmp x z ≠ Ordering.gt :=
  cmpBy_le_trans _

theorem lexCmp_swap (x y : List Char) : lexCmp y x = (lexCmp x y).swap :=
  cmpBy_swap _ x y

/-- The primary pass ties only on equal lists. -/
theorem lexCmp_eq {x y : List Char} (h : lexCmp x y = Ordering.eq) : x = y :=
  cmpBy_eq_of_inj char_toNat_inj h

theorem caseLe_trans : ∀ x y z : List Char,
    caseCmp x y ≠ Ordering.gt → caseCmp y z ≠ Ordering.gt →
      caseCmp x z ≠ Ordering.gt :=
  cmpBy_le_trans caseRank

theorem caseLe_total : ∀ x y : List Char,
    caseCmp x y ≠ Ordering.gt ∨ caseCmp y x ≠ Ordering.gt :=
  cmpBy_le_total caseRank

/-- The collator model is reflexive. -/
theorem localeCmp_self (x : List Char) : localeCompareCmp x x = Ordering.eq := by
  unfold localeCompareCmp
  rw [lexCmp_self]
  exact cmpBy_self _ _

/-- A collator-`le` bound gives the primary (case-insensitive) bound. -/
theorem localeLe_primary {x y : List Char}
    (h : localeCompareCmp x y ≠ Ordering.gt) :
    lexCmp (lower x) (lower y) ≠ Ordering.gt := by
  intro hgt
  apply h
  unfold localeCompareCmp
  rw [hgt]

/-- A collator-`le` bound on primary-tied text gives the case-pass bound. -/
theorem localeLe_case {x y : List Char}
    (h : localeCompareCmp x y ≠ Ordering.gt) (heq : lower x = lower y) :
    caseCmp x y ≠ Ordering.gt := by
  intro hgt
  apply h
  unfold localeCompareCmp
  rw [heq, lexCmp_self]
  exact hgt

/-- Transitivity of the non-strict order induced by the collator model. -/
theorem localeLe_trans (x y z : List Char)
    (h1 : localeCompareCmp x y ≠ Ordering.gt)
    (h2 : localeCompareCmp y z ≠ Ordering.gt) :
    localeCompareCmp x z ≠ Ordering.gt := by
  unfold localeCompareCmp at h1 h2 ⊢
  rcases hxy : lexCmp (lower x) (lower y) with _ | _ | _ <;> rw [hxy] at h1 <;>
    rcases hyz : lexCmp (lower y) (lower z) with _ | _ | _ <;> rw [hyz] at h2
  · rcases hxz : lexCmp (lower x) (lower z) with _ | _ | _
    · exact fun h => Ordering.noConfusion h
    · exfalso
      rw [← lexCmp_eq hxz] at hyz
      rw [lexCmp_swap, hxy] at hyz
      exact absurd hyz (by decide)
    · exfalso
      have hle := lexLe_trans (lower x) (lower y) (lower z)
        (by rw [hxy]; exact fun h => Ordering.noConfusion h)
        (by rw [hyz]; exact fun h => Ordering.noConfusion h)
      exact hle hxz
  · rw [← lexCmp_eq hyz, hxy]
    exact fun h => Ordering.noConfusion h
  · exact absurd rfl h2
  · rw [lexCmp_eq hxy, hyz]
    exact fun h => Ordering.noConfusion h
  · rw [lexCmp_eq hxy, lexCmp_eq hyz, lexCmp_self]
    exact caseLe_trans x y z h1 h2
  · exact absurd rfl h2
  · exact absurd rfl h1
  · exact absurd rfl h1
  · exact absurd rfl h1

/-- Totality of the non-strict order induced by the collator model. -/
theorem localeLe_total (x y : List Char) :
    localeCompareCmp x y ≠ Ordering.gt ∨ localeCompareCmp y x ≠ Ordering.gt := by
  unfold localeCompareCmp
  rcases hxy : lexCmp (lower x) (lower y) with _ | _ | _
  · left; exact fun h => Ordering.noConfusion h
  · rcases caseLe_total x y with h | h
    · left; exact h
    · right
      rw [lexCmp_eq hxy, lexCmp_self]
      exact h
  · right
    rw [lexCmp_swap, hxy]
    exact fun h => Ordering.noConfusion h

/-! ## Properties of the sort comparator -/

theorem sortLe_iff (a b : Contact) :
    sortLe a b = true ↔ cmpContacts a b ≠ Ordering.gt := by
  cases h : cmpContacts a b <;> simp [sortLe, h] <;> rfl

/-- The comparator-induced `le` is transitive. -/
theorem sortLe_trans (a b c : Contact) (h1 : sortLe a b) (h2 : sortLe b c) : sortLe a c := by
  rw [sortLe_iff] at h1 h2 ⊢
  simp only [cmpContacts] at h1 h2 ⊢
  cases ha : a.isFavorite <;> cases hb : b.isFavorite <;> cases hc : c.isFavorite <;>
    simp [ha, hb, hc] at h1 h2 ⊢ <;>
    exact localeLe_trans _ _ _ h1 h2

/-- The comparator-induced `le` is total. -/
theorem sortLe_total (a b : Contact) : sortLe a b || sortLe b a := by
  rw [Bool.or_eq_true, sortLe_iff, sortLe_iff]
  simp only [cmpContacts]
  cases ha : a.isFavorite <;> cases hb : b.isFavorite <;> simp <;>
    exact localeLe_total _ _

/-- `sortLe` on two contacts with the same favorite flag and identical names
holds (the only comparator ties). -/
theorem sortLe_of_tie (a b : Contact) (hfav : a.isFavorite = b.isFavorite)
    (hname : a.name = b.name) : sortLe a b = true := by
  rw [sortLe_iff]
  simp only [cmpContacts, hfav, hname]
  cases hb : b.isFavorite <;> simp [localeCmp_self]

/-- What `sortLe a b` says about the favorite flags and names: favorites
come first; within a group the lowercased names are in lexicographic order;
and names tied case-insensitively are ordered by the case pass. -/
theorem sortLe_elim (a b : Contact) (h : sortLe a b = true) :
    (b.isFavorite → a.isFavorite) ∧
    (a.isFavorite = b.isFavorite →
      lexCmp (lower a.name) (lower b.name) ≠ Ordering.gt) ∧
    (a.isFavorite = b.isFavorite → lower a.name = lower b.name →
      caseCmp a.name b.name ≠ Ordering.gt) := by
  rw [sortLe_iff] at h
  simp only [cmpContacts] at h
  cases ha : a.isFavorite <;> cases hb : b.isFavorite <;> simp [ha, hb] at h ⊢ <;>
    exact ⟨localeLe_primary h, fun heq => localeLe_case h heq⟩

/-! ## Properties of validation -/

/-- A form that passes validation has a nonempty trimmed phone that differs
from the stored phone of every contact it was checked against. -/
theorem validateForm_eq_nil (f : FormData) (existing : List Contact)
    (h : validateForm f existing = []) :
    trim f.phone ≠ [] ∧ ∀ c ∈ existing, c.phone ≠ trim f.phone := by
  simp only [validateForm, List.append_eq_nil] at h
  obtain ⟨⟨-, -⟩, h3⟩ := h
  split at h3
  · exact absurd h3 (by simp)
  · split at h3
    · exact absurd h3 (by simp)
    · rename_i hp hd
      simp only [phoneDuplicate, List.any_eq_true, not_exists] at hd
      refine ⟨hp, fun c hc hceq => ?_⟩
      exact hd c ⟨hc, by simp [hceq]⟩

/-- `DuplicatePhone` is reported exactly when the trimmed phone is nonempty
and equals some checked contact's stored (untrimmed) phone. -/
theorem duplicatePhone_mem_iff (f : FormData) (existing : List Contact) :
    FieldError.duplicatePhone ∈ validateForm f existing ↔
      trim f.phone ≠ [] ∧ ∃ c ∈ existing, c.phone = trim f.phone := by
  simp only [validateForm, List.mem_append]
  constructor
  · rintro ((h | h) | h)
    · split at h <;> simp at h
    · split at h
      · simp at h
      · split at h <;> simp at h
    · split at h
      · simp at h
      · rename_i hp
        split at h
        · rename_i hd
          simp only [phoneDuplicate, List.any_eq_true] at hd
          obtain ⟨c, hc, hceq⟩ := hd
          exact ⟨hp, c, hc, by simpa using hceq⟩
        · simp at h
  · rintro ⟨hp, c, hc, hceq⟩
    right
    rw [if_neg hp, if_pos]
    · exact List.mem_singleton.mpr rfl
    · simp only [phoneDuplicate, List.any_eq_true]
      exact ⟨c, hc, by simp [hceq]⟩

/-! ## Properties of the store operations -/

/-- With pairwise-distinct ids, filtering out one contact's id removes
exactly that contact. -/
theorem filter_ne_id_eq_erase (l : List Contact) (c : Contact)
    (hid : l.Pairwise fun a b => a.id ≠ b.id) (hc : c ∈ l) :
    (l.filter fun x => !(x.id = c.id : Bool)) = l.erase c := by
  induction l with
  | nil => cases hc
  | cons d t ih =>
    obtain ⟨hd, ht⟩ := List.pairwise_cons.mp hid
    rcases List.mem_cons.mp hc with rfl | hct
    · rw [List.erase_cons_head]
      rw [List.filter_cons_of_neg (by simp)]
      exact List.filter_eq_self.mpr fun x hx => by simpa using (hd x hx).symm
    · have hne : d.id ≠ c.id := hd c hct
      rw [List.filter_cons_of_pos (by simpa using hne)]
      rw [List.erase_cons_tail (by simpa using fun h => hne (congrArg Contact.id h))]
      rw [ih ht hct]

/-- Removing one contact (by id) and appending it back is a permutation of
the original collection. -/
theorem filter_append_perm (l : List Contact) (c : Contact)
    (hid : l.Pairwise fun a b => a.id ≠ b.id) (hc : c ∈ l) :
    ((l.filter fun x => !(x.id = c.id : Bool)) ++ [c]).Perm l := by
  rw [filter_ne_id_eq_erase l c hid hc]
  exact (List.perm_append_singleton c (l.erase c)).trans (List.perm_cons_erase hc).symm

/-- `handleUpdateContact` keeps the id sequence of the collection unchanged. -/
theorem update_map_id (l : List Contact) (u : Contact) :
    ((handleUpdateContact l u).map fun c => c.id) = l.map fun c => c.id := by
  rw [handleUpdateContact, List.map_map]
  apply List.map_congr_left
  intro x _
  by_cases h : x.id = u.id <;> simp [h]

/-- `handleUpdateContact` preserves pairwise-distinct ids. -/
theorem update_pairwise_id (l : List Contact) (u : Contact)
    (hid : l.Pairwise fun a b => a.id ≠ b.id) :
    (handleUpdateContact l u).Pairwise fun a b => a.id ≠ b.id := by
  have h1 : (l.map fun c => c.id).Pairwise (fun a b => a ≠ b) :=
    List.pairwise_map.mpr hid
  rw [← update_map_id l u] at h1
  exact List.pairwise_map.mp h1

/-- `handleUpdateContact` preserves pairwise-distinct phones when the new
record's phone differs from that of every contact with a different id. -/
theorem update_pairwise_phone (l : List Contact) (u : Contact)
    (hid : l.Pairwise fun a b => a.id ≠ b.id)
    (hpw : l.Pairwise fun a b => a.phone ≠ b.phone)
    (hph : ∀ x ∈ l, x.id ≠ u.id → x.phone ≠ u.phone) :
    (handleUpdateContact l u).Pairwise fun a b => a.phone ≠ b.phone := by
  rw [handleUpdateContact, List.pairwise_map]
  refine (hid.and hpw).imp_of_mem ?_
  intro a b ha hb hab
  by_cases h1 : a.id = u.id <;> by_cases h2 : b.id = u.id
  · exact absurd (h1.trans h2.symm) hab.1
  · simpa [h1, h2] using (hph b hb (fun h => h2 h) |>.symm)
  · simpa [h1, h2] using hph a ha (fun h => h1 h)
  · simpa [h1, h2] using hab.2

/-! ## Operation sequences (add / edit / undo) -/

/-- The user operations quantified over by the uniqueness invariant claim:
submitting the add form, submitting the edit form, and undoing a delete. -/
inductive Op where
  | addOp (t : Nat) (f : FormData)
  | editOp (editId : Nat) (f : FormData)
  | undoOp
deriving DecidableEq

/-- One operation applied to the app state. -/
def step (s : AppState) : Op → AppState
  | Op.addOp t f => submitAdd s t f
  | Op.editOp editId f => submitEdit s editId f
  | Op.undoOp => handleUndoDelete s

/-- A sequence of operations applied to the app state. -/
def run (s : AppState) : List Op → AppState
  | [] => s
  | op :: rest => run (step s op) rest

/-- An add operation carries a fresh timestamp id (`Date.now()` not colliding
with any id already in the collection). -/
def freshOp (s : AppState) : Op → Bool
  | Op.addOp t _ => s.contacts.all fun c => !(c.id = t : Bool)
  | _ => true

/-- Every add along the run carries a fresh timestamp id. -/
def freshRun (s : AppState) : List Op → Bool
  | [] => true
  | op :: rest => freshOp s op && freshRun (step s op) rest

/-- The store invariant: stored phones are trimmed and pairwise distinct,
ids are pairwise distinct, and no deletion is pending. -/
def StoreInv (s : AppState) : Prop :=
  (∀ c ∈ s.contacts, trim c.phone = c.phone) ∧
  (s.contacts.Pairwise fun a b => a.phone ≠ b.phone) ∧
  (s.contacts.Pairwise fun a b => a.id ≠ b.id) ∧
  s.deletedContact = none

theorem step_preserves_inv (s : AppState) (op : Op)
    (hI : StoreInv s) (hf : freshOp s op = true) : StoreInv (step s op) := by
  obtain ⟨htr, hph, hid, hpend⟩ := hI
  cases op with
  | addOp t f =>
    show StoreInv (submitAdd s t f)
    rw [submitAdd]
    split
    · rename_i hv
      obtain ⟨-, hnodup⟩ := validateForm_eq_nil f s.contacts hv
      refine ⟨?_, ?_, ?_, hpend⟩
      · intro c hc
        rcases List.mem_cons.mp hc with rfl | hc
        · exact trim_trim f.phone
        · exact htr c hc
      · refine List.pairwise_cons.mpr ⟨?_, hph⟩
        intro b hb
        exact fun hcontra => hnodup b hb hcontra.symm
      · refine List.pairwise_cons.mpr ⟨?_, hid⟩
        intro b hb
        simp only [freshOp, List.all_eq_true] at hf
        exact fun hcontra => (by simpa using hf b hb : ¬ b.id = t) hcontra.symm
    · exact ⟨htr, hph, hid, hpend⟩
  | editOp editId f =>
    show StoreInv (submitEdit s editId f)
    rw [submitEdit]
    split
    · exact ⟨htr, hph, hid, hpend⟩
    · rename_i c hfind
      split
      · rename_i hv
        obtain ⟨-, hnodup⟩ :=
          validateForm_eq_nil f (s.contacts.filter fun x => !(x.id = editId : Bool)) hv
        have hcid : c.id = editId := by simpa using List.find?_some hfind
        have huid : (updatedContact c f).id = editId := hcid
        refine ⟨?_, ?_, ?_, hpend⟩
        · intro x hx
          rw [handleUpdateContact] at hx
          rcases List.mem_map.mp hx with ⟨y, hy, rfl⟩
          by_cases hyid : y.id = (updatedContact c f).id
          · simpa [hyid] using trim_trim f.phone
          · simpa [hyid] using htr y hy
        · refine update_pairwise_phone s.contacts (updatedContact c f) hid hph ?_
          intro x hx hxid
          have hxmem : x ∈ s.contacts.filter fun x => !(x.id = editId : Bool) :=
            List.mem_filter.mpr ⟨hx, by simpa using fun h => hxid (h.trans huid.symm)⟩
          exact hnodup x hxmem
        · exact update_pairwise_id s.contacts (updatedContact c f) hid
      · exact ⟨htr, hph, hid, hpend⟩
  | undoOp =>
    show StoreInv (handleUndoDelete s)
    rw [handleUndoDelete, hpend]
    exact ⟨htr, hph, hid, hpend⟩

theorem run_preserves_inv (ops : List Op) (s : AppState)
    (hI : StoreInv s) (hf : freshRun s ops = true) : StoreInv (run s ops) := by
  induction ops generalizing s with
  | nil => exact hI
  | cons op rest ih =>
    rw [freshRun, Bool.and_eq_true] at hf
    exact ih (step s op) (step_preserves_inv s op hI hf.1) hf.2

/-! ## Toast / timer model -/

/-- The `type` argument of `showToast` (`'success'` or `'delete'`). -/
inductive ToastType where
  | success
  | delete
deriving DecidableEq

/-- App state together with the toast and the queue of pending `setTimeout`
callbacks scheduled by `showToast`. Each queued callback captures the `type`
it was called with; the code never calls `clearTimeout`, so scheduling a new
toast appends a timer without removing any existing one. (Toast message text
is not modelled; no claim depends on it.) -/
structure UIState where
  contacts : List Contact
  deletedContact : Option Contact
  toastShow : Bool
  toastType : ToastType
  timers : List ToastType
deriving DecidableEq

/-- `showToast`: display the toast and schedule an auto-hide timeout. -/
def showToastU (s : UIState) (t : ToastType) : UIState :=
  { s with toastShow := true, toastType := t, timers := s.timers ++ [t] }

/-- `handleConfirmDelete` at the UI level: park the record in the undo slot,
remove it from the collection, and show the delete toast (arming a timer). -/
def confirmDeleteU (s : UIState) (target : Contact) : UIState :=
  showToastU
    { s with
      deletedContact := some target
      contacts := s.contacts.filter fun c => !(c.id = target.id : Bool) }
    ToastType.delete

/-- `handleUndoDelete` at the UI level: restore the pending record (if any)
and show a success toast (arming yet another timer). -/
def undoDeleteU (s : UIState) : UIState :=
  match s.deletedContact with
  | some c =>
    showToastU { s with contacts := s.contacts ++ [c], deletedContact := none }
      ToastType.success
  | none => s

/-- Expiry of the `k`-th pending `setTimeout` callback: hide the toast and,
when the captured type was `'delete'`, clear the `deletedContact` slot. -/
def fireTimer (s : UIState) (k : Nat) : UIState :=
  match s.timers[k]? with
  | some t =>
    { s with
      toastShow := false
      toastType := ToastType.success
      deletedContact := if t = ToastType.delete then none else s.deletedContact
      timers := s.timers.eraseIdx k }
  | none => s

/-! ## Update with its notification -/

/-- What `handleUpdateContact` observably does: the new collection plus the
toast it unconditionally shows. -/
structure UpdateOutcome where
  contacts : List Contact
  toastType : ToastType
deriving DecidableEq

/-- `handleUpdateContact` including its `showToast` call: the collection is
mapped (stale ids silently match nothing) and a success toast is always
shown; the code has no failure path. -/
def handleUpdateContactFull (contacts : List Contact) (u : Contact) : UpdateOutcome :=
  { contacts := handleUpdateContact contacts u
    toastType := ToastType.success }

/-! ## Add-only sessions -/

/-- A session of add-form submissions, each with its `Date.now()` timestamp. -/
def runAdds (s : AppState) : List (Nat × FormData) → AppState
  | [] => s
  | (t, f) :: rest => runAdds (submitAdd s t f) rest

/-! ## Demonstration data (used by witnesses and counterexamples) -/

def amy : Contact :=
  ⟨1, "Amy".data, "amy@x.io".data, "100".data, none, none, none, false⟩

def bob : Contact :=
  ⟨2, "Bob".data, "bob@x.io".data, "200".data, none, none, none, false⟩

/-- A seed contact whose stored phone carries a leading blank. -/
def cBlank : Contact :=
  ⟨1, "Bob".data, "bob@x.io".data, [' ', '5'], none, none, none, false⟩

/-- A form whose trimmed phone collides with `cBlank`'s trimmed phone. -/
def fDup : FormData :=
  ⟨"Amy".data, "amy@x.io".data, ['5'], [], [], []⟩

/-- An active contact holding the spec scenario's phone `555-0100`. -/
def c100 : Contact :=
  ⟨1, "Eve".data, "eve@x.io".data, "555-0100".data, none, none, none, false⟩

/-- A form submitting the already-taken phone `555-0100`. -/
def f100 : FormData :=
  ⟨"Mallory".data, "mal@x.io".data, "555-0100".data, [], [], []⟩

/-- A valid add form with phone `1`. -/
def fOne : FormData := ⟨"Ann".data, "ann@x.io".data, ['1'], [], [], []⟩

/-- A valid add form with phone `2`. -/
def fTwo : FormData := ⟨"Ben".data, "ben@x.io".data, ['2'], [], [], []⟩

/-- A contact whose name differs from `amy`'s only in case. -/
def amyCased : Contact :=
  ⟨3, "aMY".data, "amy2@x.io".data, "300".data, none, none, none, false⟩

/-- A second contact with exactly the name `"Amy"`. -/
def amyTwin : Contact :=
  ⟨4, "Amy".data, "amy3@x.io".data, "400".data, none, none, none, false⟩

/-- `mergeSort` on a two-element list performs a single comparison. -/
theorem mergeSort_pair {α : Type _} (le : α → α → Bool) (a b : α) :
    List.mergeSort [a, b] le = if le a b then [a, b] else [b, a] := by
  rw [List.mergeSort]
  simp [List.splitInTwo, List.splitAt, List.splitAt.go, List.merge]

/-! ## Claim theorems -/

/-- C1 (amended): starting from a seed collection whose stored phone values
are already trimmed and pairwise distinct, whose ids are pairwise distinct,
and with no pending deletion, after any sequence of add, update, and
undo-delete operations in which each accepted add carries a fresh timestamp
id, no two contacts in the active collection have equal trimmed `phone`
values. -/
theorem active_phones_pairwise_distinct (s : AppState) (ops : List Op)
    (htr : ∀ c ∈ s.contacts, trim c.phone = c.phone)
    (hph : s.contacts.Pairwise fun a b => trim a.phone ≠ trim b.phone)
    (hid : s.contacts.Pairwise fun a b => a.id ≠ b.id)
    (hpend : s.deletedContact = none)
    (hf : freshRun s ops = true) :
    (run s ops).contacts.Pairwise fun a b => trim a.phone ≠ trim b.phone := by
  have hph' : s.contacts.Pairwise fun a b => a.phone ≠ b.phone := by
    refine hph.imp_of_mem ?_
    intro a b _ _ hne h
    exact hne (congrArg trim h)
  have hI := run_preserves_inv ops s ⟨htr, hph', hid, hpend⟩ hf
  refine hI.2.1.imp_of_mem ?_
  intro a b ha hb hne
  rw [hI.1 a ha, hI.1 b hb]
  exact hne

/-- Witness for C1: a concrete seed and operation sequence (add, edit of a
present id, undo) satisfying every hypothesis. -/
theorem active_phones_pairwise_distinct_witness :
    (run ⟨[amy, bob], none⟩
        [Op.addOp 7 fOne, Op.editOp 1 fTwo, Op.undoOp]).contacts.Pairwise
      fun a b => trim a.phone ≠ trim b.phone :=
  active_phones_pairwise_distinct ⟨[amy, bob], none⟩
    [Op.addOp 7 fOne, Op.editOp 1 fTwo, Op.undoOp]
    (by decide) (by decide) (by decide) rfl (by decide)

/-- Counterexample to C1 as stated: the claim's hypothesis asks only that the
seed's trimmed phones be pairwise distinct. A seed contact stored with phone
`" 5"` is such a seed, yet adding a contact with phone `"5"` passes
validation (the duplicate check compares the stored phone untrimmed), after
which two active contacts have equal trimmed phones. -/
theorem untrimmed_seed_breaks_uniqueness :
    ([cBlank].Pairwise fun a b => trim a.phone ≠ trim b.phone) ∧
    ([cBlank].Pairwise fun a b => a.id ≠ b.id) ∧
    freshRun ⟨[cBlank], none⟩ [Op.addOp 2 fDup] = true ∧
    ¬ ((run ⟨[cBlank], none⟩ [Op.addOp 2 fDup]).contacts.Pairwise
        fun a b => trim a.phone ≠ trim b.phone) := by
  decide

/-- C2: the derived view contains every active contact when the trimmed
search text is empty, and otherwise contains a contact exactly when its
lowercased name contains the lowercased search text as a substring. -/
theorem derive_membership (contacts : List Contact) (q : List Char) (c : Contact) :
    (trim q = [] → (c ∈ derive contacts q ↔ c ∈ contacts)) ∧
    (trim q ≠ [] →
      (c ∈ derive contacts q ↔ c ∈ contacts ∧ lower q <:+: lower c.name)) := by
  constructor <;> intro h
  · simp [derive, List.mem_mergeSort, filterContacts, h]
  · simp [derive, List.mem_mergeSort, filterContacts, h, List.mem_filter,
      containsSub_iff]

/-- Witness for C2: searching `"am"` over `[amy, bob]` keeps `amy` exactly
because `"am"` is a case-insensitive substring of her name. -/
theorem derive_membership_witness :
    amy ∈ derive [amy, bob] ['a', 'm'] ↔
      amy ∈ [amy, bob] ∧ lower ['a', 'm'] <:+: lower amy.name :=
  (derive_membership [amy, bob] ['a', 'm'] amy).2 (by decide)

/-- C3 (amended): the derived view is sorted with every favorite before
every non-favorite; within a group, names are in case-insensitive
lexicographic order, and names equal up to case are ordered by the
collator's case pass (lowercase before uppercase), not by prior position;
the only comparator ties are identical names within a group, and those
retain their prior relative order under the stable sort. -/
theorem derive_sorted_stable (contacts : List Contact) (q : List Char) :
    ((derive contacts q).Pairwise fun a b =>
      (b.isFavorite → a.isFavorite) ∧
      (a.isFavorite = b.isFavorite →
        lexCmp (lower a.name) (lower b.name) ≠ Ordering.gt) ∧
      (a.isFavorite = b.isFavorite → lower a.name = lower b.name →
        caseCmp a.name b.name ≠ Ordering.gt)) ∧
    (∀ a b : Contact, a.isFavorite = b.isFavorite → a.name = b.name →
      [a, b].Sublist (filterContacts contacts q) →
      [a, b].Sublist (derive contacts q)) := by
  constructor
  · exact (List.sorted_mergeSort sortLe_trans sortLe_total
      (filterContacts contacts q)).imp fun h => sortLe_elim _ _ h
  · intro a b hfav hname hsub
    exact List.pair_sublist_mergeSort sortLe_trans sortLe_total
      (sortLe_of_tie a b hfav hname) hsub

/-- Witness for C3: two distinct contacts sharing the exact name `"Amy"`
are a comparator tie and keep their input order in the view. -/
theorem derive_sorted_stable_witness :
    [amy, amyTwin].Sublist (derive [amy, amyTwin] []) :=
  (derive_sorted_stable [amy, amyTwin] []).2 amy amyTwin rfl rfl (by decide)

/-- Counterexample to C3 as stated: `"Amy"` and `"aMY"` are equal
case-insensitively — a "tie in name" for the claim — both non-favorite, and
stand in prior order `[Amy, aMY]`; yet `localeCompare` is case-sensitive at
tertiary strength, so the derived view is `[aMY, Amy]`, ordered by case
rather than by prior relative order. -/
theorem case_tie_not_stable :
    amy.isFavorite = amyCased.isFavorite ∧
    lower amy.name = lower amyCased.name ∧
    amy.name ≠ amyCased.name ∧
    derive [amy, amyCased] [] = [amyCased, amy] := by
  refine ⟨rfl, by decide, by decide, ?_⟩
  show List.mergeSort (filterContacts [amy, amyCased] []) sortLe = [amyCased, amy]
  rw [show filterContacts [amy, amyCased] [] = [amy, amyCased] from rfl,
    mergeSort_pair, (by decide : sortLe amy amyCased = false)]
  rfl

/-- C4 (amended): validation reports `DuplicatePhone` exactly when the
candidate's trimmed phone is nonempty and equals the **stored** (untrimmed)
phone of some checked contact — for the edit flow, of some active contact
other than the one being edited; and an add rejected with `DuplicatePhone`
leaves the collection unchanged. -/
theorem duplicate_phone_validation (f : FormData) (existing : List Contact)
    (s : AppState) (t editId : Nat) :
    (FieldError.duplicatePhone ∈ validateForm f existing ↔
      trim f.phone ≠ [] ∧ ∃ c ∈ existing, c.phone = trim f.phone) ∧
    (FieldError.duplicatePhone ∈
        validateForm f (s.contacts.filter fun x => !(x.id = editId : Bool)) ↔
      trim f.phone ≠ [] ∧
        ∃ c ∈ s.contacts, c.id ≠ editId ∧ c.phone = trim f.phone) ∧
    (FieldError.duplicatePhone ∈ validateForm f s.contacts →
      submitAdd s t f = s) := by
  refine ⟨duplicatePhone_mem_iff f existing, ?_, ?_⟩
  · rw [duplicatePhone_mem_iff]
    constructor
    · rintro ⟨hp, c, hc, hceq⟩
      rcases List.mem_filter.mp hc with ⟨hcm, hcid⟩
      exact ⟨hp, c, hcm, by simpa using hcid, hceq⟩
    · rintro ⟨hp, c, hc, hcid, hceq⟩
      exact ⟨hp, c, List.mem_filter.mpr ⟨hc, by simpa using hcid⟩, hceq⟩
  · intro hmem
    rw [submitAdd, if_neg (List.ne_nil_of_mem hmem)]

/-- Witness for C4: the spec scenario — adding phone `555-0100` while an
active contact already holds it is rejected and the collection is unchanged. -/
theorem duplicate_phone_validation_witness :
    submitAdd ⟨[c100], none⟩ 7 f100 = ⟨[c100], none⟩ :=
  (duplicate_phone_validation f100 [] ⟨[c100], none⟩ 7 0).2.2 (by decide)

/-- Counterexample to C4 as stated: an active contact stored with phone
`" 5"` has the same trimmed phone as the candidate `"5"`, yet validation does
not report `DuplicatePhone` — the code compares the stored phone untrimmed,
so the claimed "if and only if" over trimmed values fails. -/
theorem dup_check_compares_untrimmed :
    trim cBlank.phone = trim fDup.phone ∧
    FieldError.duplicatePhone ∉ validateForm fDup [cBlank] := by
  decide

/-- C5 (amended): the update handler never fails: when no stored record's id
matches, the collection is unchanged and a success toast is still shown (the
code has no `NotFound` signal); when a record's id matches, exactly that
position is replaced by the new record and every other position is
untouched. -/
theorem update_contact_semantics (contacts : List Contact) (u : Contact) :
    ((∀ c ∈ contacts, c.id ≠ u.id) →
      (handleUpdateContactFull contacts u).contacts = contacts) ∧
    (handleUpdateContactFull contacts u).toastType = ToastType.success ∧
    (handleUpdateContactFull contacts u).contacts.length = contacts.length ∧
    (∀ (i : Nat) (c : Contact), contacts[i]? = some c → c.id ≠ u.id →
      (handleUpdateContactFull contacts u).contacts[i]? = some c) ∧
    (∀ (i : Nat) (c : Contact), contacts[i]? = some c → c.id = u.id →
      (handleUpdateContactFull contacts u).contacts[i]? = some u) := by
  refine ⟨?_, rfl, ?_, ?_, ?_⟩
  · intro h
    show handleUpdateContact contacts u = contacts
    rw [handleUpdateContact]
    conv_rhs => rw [← List.map_id contacts]
    exact List.map_congr_left fun c hc => if_neg (h c hc)
  · show (handleUpdateContact contacts u).length = contacts.length
    rw [handleUpdateContact, List.length_map]
  · intro i c hi hne
    show (handleUpdateContact contacts u)[i]? = some c
    rw [handleUpdateContact, List.getElem?_map, hi]
    simp [hne]
  · intro i c hi heq
    show (handleUpdateContact contacts u)[i]? = some u
    rw [handleUpdateContact, List.getElem?_map, hi]
    simp [heq]

/-- Witness for C5: updating `bob`'s phone replaces exactly his position. -/
theorem update_contact_semantics_witness :
    (handleUpdateContactFull [amy, bob]
        { bob with phone := "300".data }).contacts[1]? =
      some { bob with phone := "300".data } :=
  (update_contact_semantics [amy, bob] { bob with phone := "300".data }).2.2.2.2
    1 bob rfl rfl

/-- Counterexample to C5 as stated: updating with an id that matches no
record does not fail with `NotFound` — the collection is returned unchanged
and the handler still reports success. -/
theorem update_unknown_id_reports_success :
    (∀ c ∈ [amy], c.id ≠ bob.id) ∧
    (handleUpdateContactFull [amy] bob).contacts = [amy] ∧
    (handleUpdateContactFull [amy] bob).toastType = ToastType.success := by
  decide

/-- C10: toggling favorite flips exactly the `isFavorite` field of each
contact whose id matches (all other fields preserved by the record update),
leaves every other position untouched, preserves length and order, and is
the identity when no id matches. -/
theorem toggle_favorite_frame (contacts : List Contact) (contactId : Nat) :
    (handleToggleFavorite contacts contactId).length = contacts.length ∧
    (∀ (i : Nat) (c : Contact), contacts[i]? = some c → c.id ≠ contactId →
      (handleToggleFavorite contacts contactId)[i]? = some c) ∧
    (∀ (i : Nat) (c : Contact), contacts[i]? = some c → c.id = contactId →
      (handleToggleFavorite contacts contactId)[i]? =
        some { c with isFavorite := !c.isFavorite }) ∧
    ((∀ c ∈ contacts, c.id ≠ contactId) →
      handleToggleFavorite contacts contactId = contacts) := by
  refine ⟨?_, ?_, ?_, ?_⟩
  · rw [handleToggleFavorite, List.length_map]
  · intro i c hi hne
    rw [handleToggleFavorite, List.getElem?_map, hi]
    simp [hne]
  · intro i c hi heq
    rw [handleToggleFavorite, List.getElem?_map, hi]
    simp [heq]
  · intro h
    rw [handleToggleFavorite]
    conv_rhs => rw [← List.map_id contacts]
    exact List.map_congr_left fun c hc => if_neg (h c hc)

/-- Witness for C10: toggling `bob` flips only his `isFavorite`. -/
theorem toggle_favorite_frame_witness :
    (handleToggleFavorite [amy, bob] 2)[1]? =
      some { bob with isFavorite := !bob.isFavorite } :=
  (toggle_favorite_frame [amy, bob] 2).2.2.1 1 bob rfl rfl

/-- C6 (code behavior at the failing trace): `showToast` never calls
`clearTimeout`, so after two quick delete confirmations two delete timers
are outstanding; the first timer's expiry action fires and clears the
*second* pending deletion, making its undo a no-op well inside its own
window; and an undo before expiry does not cancel the timer either — the
record is restored while the delete timer stays queued and still fires. -/
theorem timers_not_cancelled :
    let s0 : UIState := ⟨[amy, bob], none, false, ToastType.success, []⟩
    let t1 := confirmDeleteU s0 amy
    let t2 := confirmDeleteU t1 bob
    let t3 := fireTimer t2 0
    let u1 := undoDeleteU t1
    t2.timers = [ToastType.delete, ToastType.delete] ∧
    t2.deletedContact = some bob ∧
    t3.deletedContact = none ∧
    undoDeleteU t3 = t3 ∧
    bob ∉ t3.contacts ∧
    u1.deletedContact = none ∧
    amy ∈ u1.contacts ∧
    u1.timers = [ToastType.delete, ToastType.success] ∧
    (fireTimer u1 0).timers = [ToastType.success] := by
  decide

/-- C7 (amended): `addContact` ids come from `Date.now()`, so they are
unique only under distinct timestamps: if the seed ids together with all
submission timestamps are pairwise distinct, then all ids in the resulting
collection are pairwise distinct. -/
theorem add_ids_unique (s : AppState) (adds : List (Nat × FormData))
    (h : ((s.contacts.map fun c => c.id) ++ adds.map fun a => a.1).Nodup) :
    ((runAdds s adds).contacts.map fun c => c.id).Nodup := by
  induction adds generalizing s with
  | nil => simpa using h
  | cons a rest ih =>
    obtain ⟨t, f⟩ := a
    simp only [List.map_cons] at h
    show ((runAdds (submitAdd s t f) rest).contacts.map fun c => c.id).Nodup
    apply ih
    rw [submitAdd]
    split
    · have hperm :
          ((s.contacts.map fun c => c.id) ++ t :: rest.map fun a => a.1).Perm
            (t :: ((s.contacts.map fun c => c.id) ++ rest.map fun a => a.1)) :=
        List.perm_middle
      simpa [handleAddContact] using hperm.nodup h
    · refine List.Nodup.sublist ?_ h
      exact List.Sublist.append_left (List.sublist_cons_self t _) _

/-- Witness for C7: two adds at distinct timestamps over a distinct seed. -/
theorem add_ids_unique_witness :
    ((runAdds ⟨[amy, bob], none⟩ [(7, fOne), (8, fTwo)]).contacts.map
      fun c => c.id).Nodup :=
  add_ids_unique ⟨[amy, bob], none⟩ [(7, fOne), (8, fTwo)] (by decide)

/-- Counterexample to C7 as stated: two valid adds submitted in the same
millisecond both receive `Date.now()` as id, so the session issues the same
id twice. -/
theorem same_timestamp_duplicate_ids :
    ((runAdds ⟨[], none⟩ [(5, fOne), (5, fTwo)]).contacts.map fun c => c.id)
        = [5, 5] ∧
    ¬ ((runAdds ⟨[], none⟩ [(5, fOne), (5, fTwo)]).contacts.map
        fun c => c.id).Nodup := by
  decide

/-- C8: confirming a second delete while one is pending overwrites the slot
with the second record; the first is in neither the collection nor the slot,
and a subsequent undo restores only the second record, never the first. -/
theorem second_delete_discards_first (s : AppState) (c1 c2 : Contact)
    (_hpend : s.deletedContact = some c1)
    (hout : c1 ∉ s.contacts)
    (hin : c2 ∈ s.contacts) :
    (handleConfirmDelete s c2).deletedContact = some c2 ∧
    c1 ∉ (handleConfirmDelete s c2).contacts ∧
    (handleUndoDelete (handleConfirmDelete s c2)).deletedContact = none ∧
    (handleUndoDelete (handleConfirmDelete s c2)).contacts =
      (s.contacts.filter fun x => !(x.id = c2.id : Bool)) ++ [c2] ∧
    c2 ∈ (handleUndoDelete (handleConfirmDelete s c2)).contacts ∧
    c1 ∉ (handleUndoDelete (handleConfirmDelete s c2)).contacts := by
  refine ⟨rfl, ?_, rfl, rfl, ?_, ?_⟩
  · intro hmem
    exact hout (List.mem_of_mem_filter hmem)
  · exact List.mem_append_right _ (List.mem_singleton.mpr rfl)
  · intro hmem
    rcases List.mem_append.mp hmem with hmem | hmem
    · exact hout (List.mem_of_mem_filter hmem)
    · rcases List.mem_singleton.mp hmem with rfl
      exact hout hin

/-- Witness for C8: with `amy` pending and `bob` active, deleting `bob` and
undoing leaves `amy` gone for good. -/
theorem second_delete_discards_first_witness :
    amy ∉ (handleUndoDelete (handleConfirmDelete ⟨[bob], some amy⟩ bob)).contacts :=
  (second_delete_discards_first ⟨[bob], some amy⟩ amy bob rfl (by decide)
    (by decide)).2.2.2.2.2

/-- C9: with pairwise-distinct ids, deleting a contact and undoing within
the window restores the very same record (all fields), appended at the end
of the collection; the result is a permutation of the original with the
deleted record moved to the end. -/
theorem delete_then_undo (s : AppState) (contactId : Nat) (c : Contact)
    (hid : s.contacts.Pairwise fun a b => a.id ≠ b.id)
    (hfind : s.contacts.find? (fun x => x.id == contactId) = some c) :
    (requestDelete s contactId).deletedContact = some c ∧
    (handleUndoDelete (requestDelete s contactId)).deletedContact = none ∧
    (handleUndoDelete (requestDelete s contactId)).contacts =
      s.contacts.erase c ++ [c] ∧
    ((handleUndoDelete (requestDelete s contactId)).contacts).Perm s.contacts ∧
    ((handleUndoDelete (requestDelete s contactId)).contacts).getLast? = some c := by
  have hcmem : c ∈ s.contacts := List.mem_of_find?_eq_some hfind
  have hstep : requestDelete s contactId = handleConfirmDelete s c := by
    rw [requestDelete, hfind]
  have hu : (handleUndoDelete (handleConfirmDelete s c)).contacts =
      (s.contacts.filter fun x => !(x.id = c.id : Bool)) ++ [c] := rfl
  rw [hstep, hu]
  refine ⟨rfl, rfl, ?_, ?_, List.getLast?_concat _⟩
  · rw [filter_ne_id_eq_erase s.contacts c hid hcmem]
  · exact filter_append_perm s.contacts c hid hcmem

/-- Witness for C9: deleting `amy` (id 1) from `[amy, bob]` and undoing
yields a permutation of the original collection ending in `amy`. -/
theorem delete_then_undo_witness :
    ((handleUndoDelete (requestDelete ⟨[amy, bob], none⟩ 1)).contacts).Perm
      [amy, bob] :=
  (delete_then_undo ⟨[amy, bob], none⟩ 1 amy (by decide) (by decide)).2.2.2.1

end ContactApp
